import Mathlib

/-!
BinaryTierList — verification of the core tree (src/Tree.ts, src/App.tsx).

A shallow embedding of the self-balancing comparison tree of the
BinaryTierList repository, together with proofs of the specification's
claims about it.

JavaScript string values are modelled as their character sequences
(`List Char`): JavaScript's `<` on strings is lexicographic comparison,
which is exactly the lexicographic order on `List Char`.  The mutable
`parent` back-references of the source are not represented: in a purely
functional tree a node's parent is determined by its position, and the
source recomputes every `parent` field from the structure whenever the
structure changes, so they carry no independent state.
-/

namespace BinaryTierList

open scoped List

/-- Values stored in the tree: JavaScript strings as character lists. -/
abbrev Str : Type := List Char

/-- Embed a Lean string literal as a value. -/
def strV (s : String) : Str := s.data

/-- JavaScript's `<` on strings: lexicographic comparison of the
character sequences (code-unit by code-unit, shorter prefix first). -/
def strLt : Str → Str → Bool
  | [], [] => false
  | [], _ :: _ => true
  | _ :: _, [] => false
  | a :: as, b :: bs => if a < b then true else if b < a then false else strLt as bs

/-- The two child directions `'left' | 'right'`. -/
inductive Dir : Type
  | left : Dir
  | right : Dir
deriving DecidableEq

/-- Source `class Node` of src/Tree.ts: a value with two nullable children.
`nil` stands for `null`. -/
inductive Node : Type
  | nil : Node
  | node (left : Node) (value : Str) (right : Node) : Node
deriving DecidableEq

/-- Source method `Node.addChild(value, direction)`: put a fresh node holding `value`
into `this[direction]`, silently overwriting any subtree already in that
slot.  On `nil` (no node to mutate) nothing happens. -/
def Node.addChild : Node → Str → Dir → Node
  | .nil, _, _ => .nil
  | .node _ x r, v, .left => .node (.node .nil v .nil) x r
  | .node l x _, v, .right => .node l x (.node .nil v .nil)

/-- Source method `Tree.size(node)`: recursive node count of a subtree (0 for `null`). -/
def size : Node → Nat
  | .nil => 0
  | .node l _ r => 1 + size l + size r

/-- Source method `Tree._findMin(node)`: follow `left` links to the leftmost node and
return its value.  The source only calls it on non-null nodes; on `nil`
we return the empty string. -/
def findMin : Node → Str
  | .nil => []
  | .node .nil x _ => x
  | .node (.node ll lx lr) _ _ => findMin (.node ll lx lr)

/-- Source method `Tree._deleteRecursive(node, value)`: classical BST deletion guided
by lexical comparison of values, two-child case resolved through the
in-order successor. -/
def deleteRecursive : Node → Str → Node
  | .nil, _ => .nil
  | .node l x r, v =>
    if strLt v x then .node (deleteRecursive l v) x r
    else if strLt x v then .node l x (deleteRecursive r v)
    else
      match l, r with
      | .nil, _ => r
      | _, .nil => l
      | _, _ =>
        let s := findMin r
        .node l s (deleteRecursive r s)

/-- In-order sequence of a subtree's values (specification-level helper
used to state properties of the accumulator-style source traversals). -/
def inorder : Node → List Str
  | .nil => []
  | .node l x r => inorder l ++ x :: inorder r

/-- Source method `Tree._collectNodes(node, nodes)`: push fresh copies of the
subtree's nodes onto `nodes` in in-order.  Only the carried values
matter, so the accumulator holds the value sequence. -/
def collectNodes : Node → List Str → List Str
  | .nil, nodes => nodes
  | .node l x r, nodes => collectNodes r (collectNodes l nodes ++ [x])

/-- Source method `Tree._buildBalancedTree(nodes, start, end)`: rebuild a perfectly
weight-balanced tree from the collected in-order sequence by midpoint
splitting.  Indices are JavaScript numbers, here `Int` (`end` reaches
`-1` on empty ranges); an out-of-range read — which never occurs in the
source's calls — defaults to the empty string. -/
def buildBalancedTree (nodes : List Str) (s e : Int) : Node :=
  if h : s > e then .nil
  else
    .node (buildBalancedTree nodes s ((s + e) / 2 - 1))
          (nodes.getD ((s + e) / 2).toNat [])
          (buildBalancedTree nodes ((s + e) / 2 + 1) e)
termination_by (e + 1 - s).toNat
decreasing_by all_goals omega

/-- Segment view of `buildBalancedTree`: the source recursion only reads
the index segment `[start, end]` of its array, and the midpoint
`(start+end)/2` sits at relative index `(length-1)/2` of that segment,
so the same recursion can be phrased on the segment itself.  The
equivalence with `buildBalancedTree` is `buildBalancedTree_eq_buildSeg`
below. -/
def buildSeg (l : List Str) : Node :=
  if h : l = [] then .nil
  else
    .node (buildSeg (l.take ((l.length - 1) / 2)))
          (l.getD ((l.length - 1) / 2) [])
          (buildSeg (l.drop ((l.length - 1) / 2 + 1)))
termination_by l.length
decreasing_by
  · have : l.length ≠ 0 := fun hh => h (List.eq_nil_of_length_eq_zero hh)
    simp [List.length_take]
    omega
  · have : l.length ≠ 0 := fun hh => h (List.eq_nil_of_length_eq_zero hh)
    simp
    omega

/-- Source method `Tree._balanceScapegoat(node)`: post-order pass; children first,
then, if the node's balance factor exceeds 1 and its subtree has more
than one node, collect the subtree in-order and rebuild it by midpoint
splitting. -/
def balanceScapegoat : Node → Node
  | .nil => .nil
  | .node l x r =>
    let l2 := balanceScapegoat l
    let r2 := balanceScapegoat r
    let leftSize := size l2
    let rightSize := size r2
    let totalSize := size (.node l2 x r2)
    let balanceFactor := ((leftSize : Int) - (rightSize : Int)).natAbs
    if balanceFactor > 1 ∧ totalSize > 1 then
      let nodes := collectNodes (.node l2 x r2) []
      buildBalancedTree nodes 0 ((nodes.length : Int) - 1)
    else
      .node l2 x r2

/-- Source method `Tree._verifyBalance(node)`: re-check `|size(left) - size(right)| ≤ 1`
at every node of the final tree (the source only logs on failure). -/
def verifyBalance : Node → Bool
  | .nil => true
  | .node l _ r =>
    if ((size l : Int) - (size r : Int)).natAbs > 1 then false
    else verifyBalance l && verifyBalance r

/-- Source `class Tree` of src/Tree.ts: the owned root, the cached node count
`sizeCount`, and the balance-tolerance knob `alpha` (initialised to
`0.75` and never read by any operation). -/
structure Tree : Type where
  root : Node
  sizeCount : Nat
  alpha : ℚ
deriving DecidableEq

/-- Constructor `new Tree()` — the empty tree. -/
def Tree.mkEmpty : Tree := ⟨.nil, 0, 3/4⟩

/-- Constructor `new Tree(value)` — a singleton tree. -/
def Tree.mk1 (v : Str) : Tree := ⟨.node .nil v .nil, 1, 3/4⟩

/-- Source method `Tree.balance()`: replace the root by `_balanceScapegoat(root)`.
The trailing `_verifyBalance` call only logs and changes no state;
`sizeCount` and `alpha` are untouched. -/
def Tree.balance (t : Tree) : Tree :=
  { t with root := balanceScapegoat t.root }

/-- Source method `Tree.delete(value)`: delete through `_deleteRecursive`, refresh
`sizeCount` by a full `size` traversal, then `balance()`. -/
def Tree.delete (t : Tree) (v : Str) : Tree :=
  let rt := deleteRecursive t.root v
  Tree.balance { t with root := rt, sizeCount := size rt }

/-- Source method `Tree._getSortedRecursive(node, result)`: in-order accumulation of
values into `result`. -/
def getSortedRecursive : Node → List Str → List Str
  | .nil, result => result
  | .node l x r, result => getSortedRecursive r (getSortedRecursive l result ++ [x])

/-- Source method `Tree.getSorted()`: the in-order ranked sequence. -/
def Tree.getSorted (t : Tree) : List Str :=
  getSortedRecursive t.root []

/-- Helper for `'  '.repeat(level)`. -/
def strRepeat (s : String) (n : Nat) : String := String.join (List.replicate n s)

/-- Source method `Tree._inorderRecursive` (node, level, marker, lines): the diagnostic
pretty-printer, one line per node in in-order. -/
def inorderRecursive : Node → Nat → String → List String → List String
  | .nil, _, _, lines => lines
  | .node l x r, level, pfx, lines =>
    let lines1 := inorderRecursive l (level + 1) "/" lines
    let lines2 := lines1 ++
      [strRepeat "  " level ++ pfx ++ String.mk x ++
        " (L:" ++ toString (size l) ++ ", R:" ++ toString (size r) ++ ")"]
    inorderRecursive r (level + 1) "\\" lines2

/-- Source method `Tree.getTreeString()`: the diagnostic dump, lines joined by `'\n'`. -/
def Tree.getTreeString (t : Tree) : String :=
  String.intercalate "\n" (inorderRecursive t.root 0 "" [])

/-- The child of a node in a given direction (`null` on a `null` node). -/
def childAt : Node → Dir → Node
  | .nil, _ => .nil
  | .node l _ _, .left => l
  | .node _ _ r, .right => r

/-- The node reached from `t` by following a path of directions: the
functional stand-in for the walk's mutable "current comparison node"
reference.  `none` when the path falls off the tree. -/
def nodeAt : Node → List Dir → Option Node
  | .nil, _ => none
  | .node l x r, [] => some (.node l x r)
  | .node l x r, d :: ds => nodeAt (childAt (.node l x r) d) ds

/-- Apply `Node.addChild(v, dd)` to the node at `path` (the walk's
current comparison node), rebuilding the spine above it. -/
def addChildAt : Node → List Dir → Dir → Str → Node
  | .nil, _, _, _ => .nil
  | .node l x r, [], dd, v => Node.addChild (.node l x r) v dd
  | .node l x r, .left :: ds, dd, v => .node (addChildAt l ds dd v) x r
  | .node l x r, .right :: ds, dd, v => .node l x (addChildAt r ds dd v)

/-- The Insertion-Walk's state: the current comparison node (as the path
from the root to it) and the pending unranked value. -/
structure WalkState : Type where
  path : List Dir
  pending : Str
deriving DecidableEq

/-- Result of one walk step: either the walk moved to a child (more
decisions required) or it terminated by inserting the pending value. -/
inductive WalkOutcome : Type
  | moved (s : WalkState) (t : Tree) : WalkOutcome
  | inserted (t : Tree) : WalkOutcome
deriving DecidableEq

/-- Source function `handleDirection(direction)` from App.tsx: if the current node has a
child in `direction`, only the current-node reference moves; otherwise
`currentNode.addChild(currentItem, direction)` runs, `tree.balance()` is
triggered, and the App wraps the balanced root into a fresh `Tree`
(`new Tree()` leaves `sizeCount = 0` and `alpha = 0.75`).  The guard
case (invalid current node) returns with nothing changed. -/
def submitDecision (t : Tree) (s : WalkState) (d : Dir) : WalkOutcome :=
  match nodeAt t.root s.path with
  | none => .moved s t
  | some cur =>
    if childAt cur d ≠ .nil then
      .moved ⟨s.path ++ [d], s.pending⟩ t
    else
      let mutated : Tree := { t with root := addChildAt t.root s.path d s.pending }
      let balanced := Tree.balance mutated
      .inserted { root := balanced.root, sizeCount := 0, alpha := 3/4 }

/-- From `handleComparison(better)` in src/App.tsx:
`const direction = better === currentNode.value ? 'right' : 'left'` —
the clicked winner determines the walk direction. -/
def decisionDirection (better current : Str) : Dir :=
  if better = current then .right else .left

/-- The terminating Insertion-Walk: starting at the root, repeatedly
take `handleDirection`'s step, one supplied direction per step, until a
step finds the chosen child slot empty and inserts there.  `none` when
the supplied decisions run out before insertion (the interactive
protocol would keep asking for more). -/
def insertionWalk (v : Str) : Node → List Dir → Option Node
  | .nil, _ => none
  | .node _ _ _, [] => none
  | .node l x r, .left :: ds =>
    match l with
    | .nil => some (Node.addChild (.node l x r) v .left)
    | .node a b c => (insertionWalk v (.node a b c) ds).map (fun l2 => .node l2 x r)
  | .node l x r, .right :: ds =>
    match r with
    | .nil => some (Node.addChild (.node l x r) v .right)
    | .node a b c => (insertionWalk v (.node a b c) ds).map (fun r2 => .node l x r2)

/-- One complete insertion as `handleDirection` performs it: walk to an
empty slot, `addChild`, `tree.balance()`, then wrap the balanced root in
a fresh `Tree` (`sizeCount = 0`, `alpha = 0.75`). -/
def insertOne (t : Tree) (v : Str) (ds : List Dir) : Option Tree :=
  match insertionWalk v t.root ds with
  | none => none
  | some rt =>
      some { root := (Tree.balance { t with root := rt }).root, sizeCount := 0, alpha := 3/4 }

/-- Run a whole decision script: a list of items, each with the
directions its Insertion-Walk receives. -/
def insertScript : Tree → List (Str × List Dir) → Option Tree
  | t, [] => some t
  | t, (v, ds) :: rest =>
    match insertOne t v ds with
    | none => none
    | some t2 => insertScript t2 rest

/-- The search path `_deleteRecursive` follows: does the lexical binary
search locate a node holding `v`? -/
def lexFound : Node → Str → Bool
  | .nil, _ => false
  | .node l x r, v =>
    if strLt v x then lexFound l v
    else if strLt x v then lexFound r v
    else true

/-- The specification's balance invariant, in its own words: at every
node the absolute difference between the left and right subtree sizes is
at most 1. -/
def specBalanced : Node → Prop
  | .nil => True
  | .node l _ r => ((size l : Int) - (size r : Int)).natAbs ≤ 1 ∧ specBalanced l ∧ specBalanced r

/-- The tree's shape agrees with lexical order of the values: the strict
binary-search-tree property. -/
def isBST : Node → Bool
  | .nil => true
  | .node l x r =>
    (inorder l).all (fun y => strLt y x) &&
    (inorder r).all (fun y => strLt x y) &&
    isBST l && isBST r

/-! ## Traversal lemmas

The two accumulator-style source traversals produce the in-order value
sequence, and `size` is its length. -/

theorem collectNodes_eq (t : Node) (acc : List Str) :
    collectNodes t acc = acc ++ inorder t := by
  induction t generalizing acc with
  | nil => simp [collectNodes, inorder]
  | node l x r ihl ihr => simp [collectNodes, inorder, ihl, ihr]

theorem getSortedRecursive_eq (t : Node) (acc : List Str) :
    getSortedRecursive t acc = acc ++ inorder t := by
  induction t generalizing acc with
  | nil => simp [getSortedRecursive, inorder]
  | node l x r ihl ihr => simp [getSortedRecursive, inorder, ihl, ihr]

theorem getSorted_eq_inorder (t : Tree) : t.getSorted = inorder t.root := by
  simp [Tree.getSorted, getSortedRecursive_eq]

theorem size_eq_length_inorder (t : Node) : size t = (inorder t).length := by
  induction t with
  | nil => rfl
  | node l x r ihl ihr =>
    simp [size, inorder, ihl, ihr]
    omega

/-! ## Properties of the midpoint rebuild -/

theorem inorder_buildSeg (l : List Str) : inorder (buildSeg l) = l := by
  induction l using buildSeg.induct with
  | case1 => rw [buildSeg]; simp [inorder]
  | case2 l h ih1 ih2 =>
    rw [buildSeg]
    simp only [h, dite_false, inorder, ih1, ih2]
    have hlen : 0 < l.length := List.length_pos.mpr h
    have hm : (l.length - 1) / 2 < l.length := by omega
    rw [List.getD_eq_getElem l [] hm, ← List.drop_eq_getElem_cons hm, List.take_append_drop]

theorem size_buildSeg (l : List Str) : size (buildSeg l) = l.length := by
  rw [size_eq_length_inorder, inorder_buildSeg]

theorem verifyBalance_buildSeg (l : List Str) : verifyBalance (buildSeg l) = true := by
  induction l using buildSeg.induct with
  | case1 => rw [buildSeg]; simp [verifyBalance]
  | case2 l h ih1 ih2 =>
    rw [buildSeg]
    have hlen : 0 < l.length := List.length_pos.mpr h
    simp only [h, dite_false, verifyBalance, ih1, ih2, Bool.and_self]
    rw [if_neg]
    simp only [size_buildSeg, List.length_take, List.length_drop]
    omega


theorem buildBalancedTree_eq_buildSeg (nodes : List Str) (s e : Int) :
    0 ≤ s → e < nodes.length →
    buildBalancedTree nodes s e = buildSeg ((nodes.drop s.toNat).take (e + 1 - s).toNat) := by
  induction s, e using buildBalancedTree.induct nodes with
  | case1 s e h =>
    intro hs he
    rw [buildBalancedTree]
    have h0 : (e + 1 - s).toNat = 0 := by omega
    rw [h0]
    simp only [List.take_zero]
    rw [buildSeg]
    simp [h]
  | case2 s e h ih1 ih2 =>
    intro hs he
    have hse : s ≤ e := by omega
    have hm1 : s ≤ (s + e) / 2 := by omega
    have hm2 : (s + e) / 2 ≤ e := by omega
    have hlen : ((nodes.drop s.toNat).take (e + 1 - s).toNat).length = (e + 1 - s).toNat := by
      simp only [List.length_take, List.length_drop]
      omega
    have hne : (nodes.drop s.toNat).take (e + 1 - s).toNat ≠ [] := by
      intro hc
      rw [hc] at hlen
      simp at hlen
      omega
    have hA : buildBalancedTree nodes s ((s + e) / 2 - 1)
        = buildSeg (((nodes.drop s.toNat).take (e + 1 - s).toNat).take
            ((((nodes.drop s.toNat).take (e + 1 - s).toNat).length - 1) / 2)) := by
      rw [ih1 hs (by omega), hlen, List.take_take]
      congr 2
      omega
    have hC : buildBalancedTree nodes ((s + e) / 2 + 1) e
        = buildSeg (((nodes.drop s.toNat).take (e + 1 - s).toNat).drop
            ((((nodes.drop s.toNat).take (e + 1 - s).toNat).length - 1) / 2 + 1)) := by
      rw [ih2 (by omega) he, hlen, List.drop_take, List.drop_drop]
      have e1 : (e + 1 - ((s + e) / 2 + 1)).toNat
          = (e + 1 - s).toNat - (((e + 1 - s).toNat - 1) / 2 + 1) := by omega
      have e2 : ((s + e) / 2 + 1).toNat = s.toNat + (((e + 1 - s).toNat - 1) / 2 + 1) := by omega
      rw [e1, e2]
    have hB : nodes.getD ((s + e) / 2).toNat []
        = ((nodes.drop s.toNat).take (e + 1 - s).toNat).getD
            ((((nodes.drop s.toNat).take (e + 1 - s).toNat).length - 1) / 2) [] := by
      have hin : (((nodes.drop s.toNat).take (e + 1 - s).toNat).length - 1) / 2
          < ((nodes.drop s.toNat).take (e + 1 - s).toNat).length := by
        rw [hlen]; omega
      have hin2 : ((s + e) / 2).toNat < nodes.length := by omega
      rw [List.getD_eq_getElem _ _ hin, List.getD_eq_getElem _ _ hin2]
      rw [List.getElem_take]
      rw [List.getElem_drop]
      congr 1
      rw [hlen]
      omega
    rw [buildBalancedTree, dif_neg h, buildSeg]
    rw [dif_neg hne]
    rw [hA, hB, hC]

theorem buildBalancedTree_full (nodes : List Str) :
    buildBalancedTree nodes 0 ((nodes.length : Int) - 1) = buildSeg nodes := by
  rw [buildBalancedTree_eq_buildSeg nodes 0 _ le_rfl (by omega)]
  have h1 : ((nodes.length : Int) - 1 + 1 - 0).toNat = nodes.length := by omega
  rw [h1]
  have h2 : (0 : Int).toNat = 0 := rfl
  rw [h2, List.drop_zero, List.take_length]

theorem inorder_balanceScapegoat (t : Node) : inorder (balanceScapegoat t) = inorder t := by
  induction t with
  | nil => rfl
  | node l x r ihl ihr =>
    simp only [balanceScapegoat]
    by_cases hc : ((size (balanceScapegoat l) : Int) - (size (balanceScapegoat r) : Int)).natAbs > 1
        ∧ size (Node.node (balanceScapegoat l) x (balanceScapegoat r)) > 1
    · rw [if_pos hc, collectNodes_eq, List.nil_append, buildBalancedTree_full, inorder_buildSeg]
      simp [inorder, ihl, ihr]
    · rw [if_neg hc]
      simp [inorder, ihl, ihr]

theorem size_balanceScapegoat (t : Node) : size (balanceScapegoat t) = size t := by
  rw [size_eq_length_inorder, size_eq_length_inorder, inorder_balanceScapegoat]

theorem verifyBalance_balanceScapegoat (t : Node) :
    verifyBalance (balanceScapegoat t) = true := by
  induction t with
  | nil => rfl
  | node l x r ihl ihr =>
    simp only [balanceScapegoat]
    by_cases hc : ((size (balanceScapegoat l) : Int) - (size (balanceScapegoat r) : Int)).natAbs > 1
        ∧ size (Node.node (balanceScapegoat l) x (balanceScapegoat r)) > 1
    · rw [if_pos hc, collectNodes_eq, List.nil_append, buildBalancedTree_full]
      exact verifyBalance_buildSeg _
    · rw [if_neg hc]
      have hbf : ¬ (((size (balanceScapegoat l) : Int) - (size (balanceScapegoat r) : Int)).natAbs > 1) := by
        rcases not_and_or.mp hc with h1 | h1
        · exact h1
        · simp only [size] at h1
          omega
      rw [verifyBalance, if_neg hbf, ihl, ihr, Bool.and_self]

theorem balanceScapegoat_of_verified (t : Node) (h : verifyBalance t = true) :
    balanceScapegoat t = t := by
  induction t with
  | nil => rfl
  | node l x r ihl ihr =>
    rw [verifyBalance] at h
    by_cases hbf : ((size l : Int) - (size r : Int)).natAbs > 1
    · rw [if_pos hbf] at h
      exact absurd h (by simp)
    · rw [if_neg hbf] at h
      have hl := ihl (by revert h; cases verifyBalance l <;> simp)
      have hr := ihr (by revert h; cases verifyBalance r <;> simp)
      simp only [balanceScapegoat, hl, hr]
      rw [if_neg]
      intro hc
      exact hbf hc.1

/-- The source's `_verifyBalance` check decides exactly the
specification's per-node invariant. -/
theorem specBalanced_iff_verifyBalance (t : Node) :
    specBalanced t ↔ verifyBalance t = true := by
  induction t with
  | nil => simp [specBalanced, verifyBalance]
  | node l x r ihl ihr =>
    rw [specBalanced, verifyBalance]
    by_cases hbf : ((size l : Int) - (size r : Int)).natAbs > 1
    · rw [if_pos hbf]
      simp only [ihl, ihr]
      constructor
      · intro hc
        omega
      · intro hc
        exact absurd hc (by simp)
    · rw [if_neg hbf]
      simp only [ihl, ihr, Bool.and_eq_true]
      constructor
      · intro hc
        exact ⟨hc.2.1, hc.2.2⟩
      · intro hc
        exact ⟨by omega, hc.1, hc.2⟩

/-! ## Walk lemmas -/

theorem nodeAt_child (t : Node) (p : List Dir) (d : Dir) (cur : Node)
    (h : nodeAt t p = some cur) (hc : childAt cur d ≠ .nil) :
    nodeAt t (p ++ [d]) = some (childAt cur d) := by
  induction p generalizing t with
  | nil =>
    cases t with
    | nil => exact absurd h (by simp [nodeAt])
    | node l x r =>
      rw [nodeAt] at h
      injection h with h
      subst h
      rw [List.nil_append, nodeAt]
      cases hcc : childAt (Node.node l x r) d with
      | nil => exact absurd hcc hc
      | node a b c => rw [nodeAt]
  | cons d0 ds ih =>
    cases t with
    | nil => exact absurd h (by simp [nodeAt])
    | node l x r =>
      rw [nodeAt] at h
      rw [List.cons_append, nodeAt]
      exact ih _ h

theorem nodeAt_addChildAt (t : Node) (p : List Dir) (d : Dir) (v : Str) (cur : Node)
    (h : nodeAt t p = some cur) :
    nodeAt (addChildAt t p d v) (p ++ [d]) = some (.node .nil v .nil) := by
  induction p generalizing t with
  | nil =>
    cases t with
    | nil => exact absurd h (by simp [nodeAt])
    | node l x r =>
      cases d with
      | left => simp [addChildAt, Node.addChild, nodeAt, childAt]
      | right => simp [addChildAt, Node.addChild, nodeAt, childAt]
  | cons d0 ds ih =>
    cases t with
    | nil => exact absurd h (by simp [nodeAt])
    | node l x r =>
      rw [nodeAt] at h
      cases d0 with
      | left =>
        rw [List.cons_append]
        rw [show addChildAt (Node.node l x r) (Dir.left :: ds) d v
            = Node.node (addChildAt l ds d v) x r from rfl]
        rw [nodeAt]
        exact ih l h
      | right =>
        rw [List.cons_append]
        rw [show addChildAt (Node.node l x r) (Dir.right :: ds) d v
            = Node.node l x (addChildAt r ds d v) from rfl]
        rw [nodeAt]
        exact ih r h


/-! ## Insertion-walk lemmas -/

theorem inorder_insertionWalk (v : Str) (t t2 : Node) (ds : List Dir)
    (h : insertionWalk v t ds = some t2) :
    (inorder t2).Perm (v :: inorder t) := by
  induction t generalizing ds t2 with
  | nil => rw [insertionWalk] at h; exact absurd h (by simp)
  | node l x r ihl ihr =>
    cases ds with
    | nil => rw [insertionWalk] at h; exact absurd h (by simp)
    | cons d ds =>
      cases d with
      | left =>
        cases l with
        | nil =>
          rw [insertionWalk] at h
          injection h with h
          subst h
          simp [inorder, Node.addChild]
        | node a b c =>
          rw [insertionWalk] at h
          cases hw : insertionWalk v (Node.node a b c) ds with
          | none => rw [hw] at h; exact absurd h (by simp)
          | some l2 =>
            rw [hw] at h
            simp only [Option.map_some'] at h
            injection h with h
            subst h
            have hp := ihl l2 ds hw
            calc inorder (Node.node l2 x r)
                = inorder l2 ++ x :: inorder r := by rw [inorder]
              _ ~ (v :: inorder (Node.node a b c)) ++ x :: inorder r :=
                  List.Perm.append_right _ hp
              _ = v :: inorder (Node.node (Node.node a b c) x r) := by rw [inorder]; rfl
      | right =>
        cases r with
        | nil =>
          rw [insertionWalk] at h
          injection h with h
          subst h
          calc inorder (Node.node l x (Node.nil.node v Node.nil))
              = (inorder l ++ [x]) ++ v :: [] := by simp [inorder, Node.addChild]
            _ ~ v :: ((inorder l ++ [x]) ++ []) := List.perm_middle
            _ = v :: inorder (Node.node l x Node.nil) := by simp [inorder]
        | node a b c =>
          rw [insertionWalk] at h
          cases hw : insertionWalk v (Node.node a b c) ds with
          | none => rw [hw] at h; exact absurd h (by simp)
          | some r2 =>
            rw [hw] at h
            simp only [Option.map_some'] at h
            injection h with h
            subst h
            have hp := ihr r2 ds hw
            calc inorder (Node.node l x r2)
                = (inorder l ++ [x]) ++ inorder r2 := by simp [inorder]
              _ ~ (inorder l ++ [x]) ++ (v :: inorder (Node.node a b c)) :=
                  List.Perm.append_left _ hp
              _ ~ v :: ((inorder l ++ [x]) ++ inorder (Node.node a b c)) := List.perm_middle
              _ = v :: inorder (Node.node l x (Node.node a b c)) := by simp [inorder]

theorem inorder_insertOne (t t2 : Tree) (v : Str) (ds : List Dir)
    (h : insertOne t v ds = some t2) :
    (inorder t2.root).Perm (v :: inorder t.root) := by
  rw [insertOne] at h
  cases hw : insertionWalk v t.root ds with
  | none => rw [hw] at h; exact absurd h (by simp)
  | some rt =>
    rw [hw] at h
    injection h with h
    subst h
    show (inorder (balanceScapegoat rt)).Perm _
    rw [inorder_balanceScapegoat]
    exact inorder_insertionWalk v t.root rt ds hw

theorem inorder_insertScript (script : List (Str × List Dir)) (t t2 : Tree)
    (h : insertScript t script = some t2) :
    (inorder t2.root).Perm (script.map Prod.fst ++ inorder t.root) := by
  induction script generalizing t with
  | nil =>
    rw [insertScript] at h
    injection h with h
    subst h
    simp
  | cons p rest ih =>
    obtain ⟨v, ds⟩ := p
    rw [insertScript] at h
    cases h1 : insertOne t v ds with
    | none => rw [h1] at h; exact absurd h (by simp)
    | some t1 =>
      rw [h1] at h
      have h2 : insertScript t1 rest = some t2 := h
      calc inorder t2.root
          ~ rest.map Prod.fst ++ inorder t1.root := ih t1 h
        _ ~ rest.map Prod.fst ++ (v :: inorder t.root) :=
            List.Perm.append_left _ (inorder_insertOne t t1 v ds h1)
        _ ~ v :: (rest.map Prod.fst ++ inorder t.root) := List.perm_middle
        _ = ((v, ds) :: rest).map Prod.fst ++ inorder t.root := by simp


/-! ## The lexicographic order -/

theorem strLt_irrefl (a : Str) : strLt a a = false := by
  induction a with
  | nil => rfl
  | cons x xs ih => simp [strLt, lt_irrefl, ih]

theorem strLt_asymm (a b : Str) (h : strLt a b = true) : strLt b a = false := by
  induction a generalizing b with
  | nil =>
    cases b with
    | nil => exact absurd h (by simp [strLt])
    | cons y ys => rfl
  | cons x xs ih =>
    cases b with
    | nil => exact absurd h (by simp [strLt])
    | cons y ys =>
      rw [strLt] at h
      rw [strLt]
      by_cases hxy : x < y
      · rw [if_neg (lt_asymm hxy), if_pos hxy]
      · rw [if_neg hxy] at h
        by_cases hyx : y < x
        · rw [if_pos hyx] at h
          exact absurd h (by simp)
        · rw [if_neg hyx] at h
          rw [if_neg hyx, if_neg hxy]
          exact ih ys h

theorem strLt_trans (a b c : Str) (h1 : strLt a b = true) (h2 : strLt b c = true) :
    strLt a c = true := by
  induction a generalizing b c with
  | nil =>
    cases b with
    | nil => exact absurd h1 (by simp [strLt])
    | cons y ys =>
      cases c with
      | nil => exact absurd h2 (by simp [strLt])
      | cons z zs => rfl
  | cons x xs ih =>
    cases b with
    | nil => exact absurd h1 (by simp [strLt])
    | cons y ys =>
      cases c with
      | nil => exact absurd h2 (by simp [strLt])
      | cons z zs =>
        rw [strLt] at h1 h2
        rw [strLt]
        by_cases hxy : x < y
        · by_cases hyz : y < z
          · rw [if_pos (lt_trans hxy hyz)]
          · rw [if_neg hyz] at h2
            by_cases hzy : z < y
            · rw [if_pos hzy] at h2
              exact absurd h2 (by simp)
            · have : y = z := le_antisymm (le_of_not_lt hzy) (le_of_not_lt hyz)
              subst this
              rw [if_pos hxy]
        · rw [if_neg hxy] at h1
          by_cases hyx : y < x
          · rw [if_pos hyx] at h1
            exact absurd h1 (by simp)
          · rw [if_neg hyx] at h1
            have hxeq : x = y := le_antisymm (le_of_not_lt hyx) (le_of_not_lt hxy)
            subst hxeq
            by_cases hxz : x < z
            · rw [if_pos hxz]
            · rw [if_neg hxz] at h2 ⊢
              by_cases hzx : z < x
              · rw [if_pos hzx] at h2
                exact absurd h2 (by simp)
              · rw [if_neg hzx] at h2 ⊢
                exact ih ys zs h1 h2

theorem strLt_connex (a b : Str) (h1 : strLt a b = false) (h2 : strLt b a = false) :
    a = b := by
  induction a generalizing b with
  | nil =>
    cases b with
    | nil => rfl
    | cons y ys => exact absurd h1 (by simp [strLt])
  | cons x xs ih =>
    cases b with
    | nil => exact absurd h2 (by simp [strLt])
    | cons y ys =>
      rw [strLt] at h1 h2
      by_cases hxy : x < y
      · rw [if_pos hxy] at h1
        exact absurd h1 (by simp)
      · by_cases hyx : y < x
        · rw [if_pos hyx] at h2
          exact absurd h2 (by simp)
        · rw [if_neg hxy, if_neg hyx] at h1
          rw [if_neg hyx, if_neg hxy] at h2
          have hxeq : x = y := le_antisymm (le_of_not_lt hyx) (le_of_not_lt hxy)
          rw [hxeq, ih ys h1 h2]

theorem strLt_ne (a b : Str) (h : strLt a b = true) : a ≠ b := by
  intro hc
  subst hc
  rw [strLt_irrefl] at h
  exact absurd h (by simp)


/-! ## BST deletion lemmas -/

theorem deleteRecursive_lt {l r : Node} {x v : Str} (hvx : strLt v x = true) :
    deleteRecursive (.node l x r) v = .node (deleteRecursive l v) x r := by
  cases l <;> cases r <;> simp [deleteRecursive, hvx]

theorem deleteRecursive_gt {l r : Node} {x v : Str} (hvx : strLt v x = false)
    (hxv : strLt x v = true) :
    deleteRecursive (.node l x r) v = .node l x (deleteRecursive r v) := by
  cases l <;> cases r <;> simp [deleteRecursive, hvx, hxv]

theorem deleteRecursive_found_nl {r : Node} {x v : Str} (hvx : strLt v x = false)
    (hxv : strLt x v = false) :
    deleteRecursive (.node .nil x r) v = r := by
  cases r <;> simp [deleteRecursive, hvx, hxv]

theorem deleteRecursive_found_nr {la : Node} {lb : Str} {lc : Node} {x v : Str}
    (hvx : strLt v x = false) (hxv : strLt x v = false) :
    deleteRecursive (.node (.node la lb lc) x .nil) v = .node la lb lc := by
  simp [deleteRecursive, hvx, hxv]

theorem deleteRecursive_found_two {la : Node} {lb : Str} {lc : Node}
    {ra : Node} {rb : Str} {rc : Node} {x v : Str}
    (hvx : strLt v x = false) (hxv : strLt x v = false) :
    deleteRecursive (.node (.node la lb lc) x (.node ra rb rc)) v
      = .node (.node la lb lc) (findMin (.node ra rb rc))
          (deleteRecursive (.node ra rb rc) (findMin (.node ra rb rc))) := by
  simp [deleteRecursive, hvx, hxv]

theorem isBST_node {l : Node} {x : Str} {r : Node} (h : isBST (.node l x r) = true) :
    (∀ y ∈ inorder l, strLt y x = true) ∧ (∀ y ∈ inorder r, strLt x y = true) ∧
      isBST l = true ∧ isBST r = true := by
  rw [isBST] at h
  simp only [Bool.and_eq_true, List.all_eq_true] at h
  exact ⟨h.1.1.1, h.1.1.2, h.1.2, h.2⟩

theorem findMin_head (l : Node) (x : Str) (r : Node) :
    ∃ tl, inorder (.node l x r) = findMin (.node l x r) :: tl := by
  induction l generalizing x r with
  | nil => exact ⟨inorder r, by rw [findMin]; simp [inorder]⟩
  | node a b c ih =>
    obtain ⟨tl, htl⟩ := ih b c
    refine ⟨tl ++ x :: inorder r, ?_⟩
    rw [findMin]
    rw [show inorder (Node.node (Node.node a b c) x r)
        = inorder (Node.node a b c) ++ x :: inorder r from rfl]
    rw [htl]
    rfl

theorem not_mem_of_all_lt {xs : List Str} {x v : Str}
    (hall : ∀ y ∈ xs, strLt y x = true) (hv : strLt v x = false) : v ∉ xs := by
  intro hc
  rw [hall v hc] at hv
  exact absurd hv (by simp)

theorem not_mem_of_all_gt {xs : List Str} {x v : Str}
    (hall : ∀ y ∈ xs, strLt x y = true) (hv : strLt x v = false) : v ∉ xs := by
  intro hc
  rw [hall v hc] at hv
  exact absurd hv (by simp)

theorem inorder_deleteRecursive (t : Node) : ∀ (v : Str), isBST t = true →
    inorder (deleteRecursive t v) = (inorder t).erase v := by
  induction t with
  | nil => intro v h; rfl
  | node l x r ihl ihr =>
    intro v h
    obtain ⟨hl, hr, hbl, hbr⟩ := isBST_node h
    by_cases hvx : strLt v x = true
    · rw [deleteRecursive_lt hvx]
      rw [show inorder (Node.node (deleteRecursive l v) x r)
          = inorder (deleteRecursive l v) ++ x :: inorder r from rfl]
      rw [ihl v hbl, inorder]
      by_cases hmem : v ∈ inorder l
      · rw [List.erase_append_left _ hmem]
      · rw [List.erase_of_not_mem hmem, List.erase_append_right _ hmem]
        have hvx2 : ¬((x == v) = true) := by
          simp only [beq_iff_eq]
          intro hc
          subst hc
          rw [strLt_irrefl] at hvx
          exact absurd hvx (by simp)
        rw [List.erase_cons_tail hvx2]
        have : v ∉ inorder r := by
          apply not_mem_of_all_gt hr
          cases hx : strLt x v
          · rfl
          · rw [strLt_asymm v x hvx] at hx
            exact absurd hx (by simp)
        rw [List.erase_of_not_mem this]
    · by_cases hxv : strLt x v = true
      · rw [deleteRecursive_gt (by simp [hvx]) hxv]
        rw [show inorder (Node.node l x (deleteRecursive r v))
            = inorder l ++ x :: inorder (deleteRecursive r v) from rfl]
        rw [ihr v hbr, inorder]
        have hvnl : v ∉ inorder l := by
          apply not_mem_of_all_lt hl
          exact strLt_asymm x v hxv
        rw [List.erase_append_right _ hvnl]
        have hvx2 : ¬((x == v) = true) := by
          simp only [beq_iff_eq]
          intro hc
          subst hc
          rw [strLt_irrefl] at hxv
          exact absurd hxv (by simp)
        rw [List.erase_cons_tail hvx2]
      · have hveq : v = x := strLt_connex v x (by simp at hvx; exact hvx) (by simp at hxv; exact hxv)
        subst hveq
        have hvnl : v ∉ inorder l := not_mem_of_all_lt hl (strLt_irrefl v)
        cases l with
        | nil =>
          rw [deleteRecursive_found_nl (by simp [hvx]) (by simp [hxv])]
          rw [inorder]
          simp [inorder, List.erase_cons_head]
        | node la lb lc =>
          cases r with
          | nil =>
            rw [deleteRecursive_found_nr (by simp [hvx]) (by simp [hxv])]
            rw [show inorder (Node.node (Node.node la lb lc) v Node.nil)
                = inorder (Node.node la lb lc) ++ v :: [] from rfl]
            rw [List.erase_append_right _ hvnl, List.erase_cons_head]
            simp
          | node ra rb rc =>
            rw [deleteRecursive_found_two (by simp [hvx]) (by simp [hxv])]
            obtain ⟨tl, htl⟩ := findMin_head ra rb rc
            rw [show inorder (Node.node (Node.node la lb lc) (findMin (Node.node ra rb rc))
                  (deleteRecursive (Node.node ra rb rc) (findMin (Node.node ra rb rc))))
                = inorder (Node.node la lb lc) ++ findMin (Node.node ra rb rc)
                  :: inorder (deleteRecursive (Node.node ra rb rc)
                      (findMin (Node.node ra rb rc))) from rfl]
            rw [ihr (findMin (Node.node ra rb rc)) hbr, htl, List.erase_cons_head]
            rw [show inorder (Node.node (Node.node la lb lc) v (Node.node ra rb rc))
                = inorder (Node.node la lb lc) ++ v :: inorder (Node.node ra rb rc) from rfl]
            rw [List.erase_append_right _ hvnl, List.erase_cons_head, htl]

theorem lexFound_false_delete (t : Node) (v : Str) (h : lexFound t v = false) :
    deleteRecursive t v = t := by
  induction t with
  | nil => rfl
  | node l x r ihl ihr =>
    rw [lexFound] at h
    by_cases hvx : strLt v x = true
    · rw [if_pos hvx] at h
      rw [deleteRecursive_lt hvx, ihl h]
    · by_cases hxv : strLt x v = true
      · rw [if_neg (by simp [hvx]), if_pos hxv] at h
        rw [deleteRecursive_gt (by simp [hvx]) hxv, ihr h]
      · rw [if_neg (by simp [hvx]), if_neg (by simp [hxv])] at h
        exact absurd h (by simp)

theorem inorder_pairwise (t : Node) (h : isBST t = true) :
    (inorder t).Pairwise (fun a b => strLt a b = true) := by
  induction t with
  | nil => exact List.Pairwise.nil
  | node l x r ihl ihr =>
    obtain ⟨hl, hr, hbl, hbr⟩ := isBST_node h
    rw [inorder, List.pairwise_append]
    refine ⟨ihl hbl, ?_, ?_⟩
    · rw [List.pairwise_cons]
      exact ⟨hr, ihr hbr⟩
    · intro a ha b hb
      rcases List.mem_cons.mp hb with hbx | hbr2
      · subst hbx; exact hl a ha
      · exact strLt_trans a x b (hl a ha) (hr b hbr2)

theorem inorder_nodup (t : Node) (h : isBST t = true) : (inorder t).Nodup := by
  apply List.Pairwise.imp _ (inorder_pairwise t h)
  intro a b hab
  exact strLt_ne a b hab


/-! ## The claims -/

/-- C1: after any `balance()` call — hence after each balance in any
sequence of Insertion-Walk insertions — every node of the tree satisfies
`|size(left) - size(right)| ≤ 1`, both in the specification's own wording
(`specBalanced`) and as checked by the source's `_verifyBalance`; a
single top-level `balance()` call establishes this for the whole tree. -/
theorem C1_balance_restores_invariant (t : Tree) :
    specBalanced (Tree.balance t).root ∧ verifyBalance (Tree.balance t).root = true := by
  have h := verifyBalance_balanceScapegoat t.root
  exact ⟨(specBalanced_iff_verifyBalance _).mpr h, h⟩

/-- C1 witness: the invariant holds after balancing a right chain. -/
theorem C1_witness :
    specBalanced (Tree.balance ⟨.node .nil (strV "A")
        (.node .nil (strV "B") (.node .nil (strV "C") .nil)), 3, 3/4⟩).root :=
  (C1_balance_restores_invariant _).1

/-- C2: one `submitDecision` step: when the current comparison node has a
child in the chosen direction, the walk only moves to that child and the
tree is untouched; when the slot is empty, the pending value is created
there via `addChild` and a full rebalance is triggered (`handleDirection`
then wraps the balanced root in a fresh `Tree`). -/
theorem C2_submitDecision_step (t : Tree) (s : WalkState) (d : Dir) (cur : Node)
    (h : nodeAt t.root s.path = some cur) :
    (childAt cur d ≠ .nil →
      submitDecision t s d = .moved ⟨s.path ++ [d], s.pending⟩ t ∧
      nodeAt t.root (s.path ++ [d]) = some (childAt cur d)) ∧
    (childAt cur d = .nil →
      submitDecision t s d = .inserted
          { root := (Tree.balance { t with root := addChildAt t.root s.path d s.pending }).root,
            sizeCount := 0, alpha := 3/4 } ∧
      nodeAt (addChildAt t.root s.path d s.pending) (s.path ++ [d])
        = some (.node .nil s.pending .nil)) := by
  constructor
  · intro hc
    refine ⟨?_, nodeAt_child t.root s.path d cur h hc⟩
    simp only [submitDecision, h]
    rw [if_pos hc]
  · intro hc
    refine ⟨?_, nodeAt_addChildAt t.root s.path d s.pending cur h⟩
    simp only [submitDecision, h]
    rw [if_neg (by simp [hc])]

/-- C2 witness: both cases of the step on the two-node tree with root "A"
and left child "B", pending value "X". -/
theorem C2_witness :
    (submitDecision ⟨.node (.node .nil (strV "B") .nil) (strV "A") .nil, 2, 3/4⟩
        ⟨[], strV "X"⟩ Dir.left
      = .moved ⟨[Dir.left], strV "X"⟩
          ⟨.node (.node .nil (strV "B") .nil) (strV "A") .nil, 2, 3/4⟩) ∧
    (submitDecision ⟨.node (.node .nil (strV "B") .nil) (strV "A") .nil, 2, 3/4⟩
        ⟨[], strV "X"⟩ Dir.right
      = .inserted
          { root := (Tree.balance
              { (⟨.node (.node .nil (strV "B") .nil) (strV "A") .nil, 2, 3/4⟩ : Tree) with
                root := addChildAt (.node (.node .nil (strV "B") .nil) (strV "A") .nil)
                  [] Dir.right (strV "X") }).root,
            sizeCount := 0, alpha := 3/4 }) :=
  ⟨((C2_submitDecision_step ⟨.node (.node .nil (strV "B") .nil) (strV "A") .nil, 2, 3/4⟩
      ⟨[], strV "X"⟩ Dir.left _ rfl).1 (by decide)).1,
   ((C2_submitDecision_step ⟨.node (.node .nil (strV "B") .nil) (strV "A") .nil, 2, 3/4⟩
      ⟨[], strV "X"⟩ Dir.right _ rfl).2 (by decide)).1⟩

/-- C3 counterexample: the claim says deciding that "B" wins against the
root "A" creates "B" as the right child with getSorted() = ["A","B"];
the code (`handleComparison`) maps a win for the pending item to
direction 'left', so "B" becomes the LEFT child and getSorted() is
["B","A"], not ["A","B"]. -/
theorem C3_counterexample :
    decisionDirection (strV "B") (strV "A") = Dir.left ∧
    submitDecision (Tree.mk1 (strV "A")) ⟨[], strV "B"⟩
        (decisionDirection (strV "B") (strV "A"))
      = .inserted ⟨.node (.node .nil (strV "B") .nil) (strV "A") .nil, 0, 3/4⟩ ∧
    Tree.getSorted ⟨.node (.node .nil (strV "B") .nil) (strV "A") .nil, 0, 3/4⟩
      ≠ [strV "A", strV "B"] := by
  refine ⟨by decide, rfl, by decide⟩

/-- C3 amended: starting from the singleton tree "A", submitting the
decision that "B" wins against the root creates "B" as the root's left
child (the winner is placed leftwards), and getSorted() then returns
["B","A"] — best first. -/
theorem C3_amended_scenario :
    submitDecision (Tree.mk1 (strV "A")) ⟨[], strV "B"⟩
        (decisionDirection (strV "B") (strV "A"))
      = .inserted ⟨.node (.node .nil (strV "B") .nil) (strV "A") .nil, 0, 3/4⟩ ∧
    Tree.getSorted ⟨.node (.node .nil (strV "B") .nil) (strV "A") .nil, 0, 3/4⟩
      = [strV "B", strV "A"] :=
  ⟨rfl, rfl⟩

/-- C4: running a complete decision script of Insertion-Walk insertions
(each `insertOne` ends in the `balance()` of `handleDirection`) starting
from the singleton tree yields a `getSorted()` sequence that is a
permutation of the inserted values; for pairwise-distinct inputs it
contains every value exactly once — no duplicates, no omissions. -/
theorem C4_getSorted_permutation (a : Str) (script : List (Str × List Dir)) (t2 : Tree)
    (h : insertScript (Tree.mk1 a) script = some t2) :
    t2.getSorted ~ a :: script.map Prod.fst ∧
    ((a :: script.map Prod.fst).Nodup → t2.getSorted.Nodup) := by
  have hp : t2.getSorted ~ script.map Prod.fst ++ [a] := by
    rw [getSorted_eq_inorder]
    have hq := inorder_insertScript script (Tree.mk1 a) t2 h
    simpa [Tree.mk1, inorder] using hq
  have hp2 : t2.getSorted ~ a :: script.map Prod.fst :=
    hp.trans (List.perm_append_singleton a _)
  exact ⟨hp2, fun hnd => hp2.nodup_iff.mpr hnd⟩

/-- C4 witness: a literal five-item decision script; the resulting
sequence is a permutation of the five inserted values with no
duplicates. -/
theorem C4_witness :
    insertScript (Tree.mk1 (strV "A"))
        [(strV "B", [Dir.right]), (strV "C", [Dir.left]),
         (strV "D", [Dir.right, Dir.left]), (strV "E", [Dir.left, Dir.left])]
      = some ⟨.node (.node (.node .nil (strV "E") .nil) (strV "C") .nil) (strV "A")
                (.node (.node .nil (strV "D") .nil) (strV "B") .nil), 0, 3/4⟩ ∧
    (Tree.getSorted ⟨.node (.node (.node .nil (strV "E") .nil) (strV "C") .nil) (strV "A")
                (.node (.node .nil (strV "D") .nil) (strV "B") .nil), 0, 3/4⟩
      ~ strV "A" :: [(strV "B", [Dir.right]), (strV "C", [Dir.left]),
         (strV "D", [Dir.right, Dir.left]), (strV "E", [Dir.left, Dir.left])].map Prod.fst) := by
  have h : insertScript (Tree.mk1 (strV "A"))
        [(strV "B", [Dir.right]), (strV "C", [Dir.left]),
         (strV "D", [Dir.right, Dir.left]), (strV "E", [Dir.left, Dir.left])]
      = some ⟨.node (.node (.node .nil (strV "E") .nil) (strV "C") .nil) (strV "A")
                (.node (.node .nil (strV "D") .nil) (strV "B") .nil), 0, 3/4⟩ := rfl
  exact ⟨h, (C4_getSorted_permutation (strV "A") _ _ h).1⟩

/-- C5: `balance()` preserves the in-order sequence: `getSorted()` after
`balance()` equals `getSorted()` before it (each scapegoat subtree is
rebuilt from its own in-order value sequence). -/
theorem C5_balance_preserves_getSorted (t : Tree) :
    (Tree.balance t).getSorted = t.getSorted := by
  rw [getSorted_eq_inorder, getSorted_eq_inorder]
  exact inorder_balanceScapegoat t.root


/-- C6 counterexample: the claim's universal part is false. In the tree
whose root "B" has "A" as its RIGHT child (a shape pairwise decisions
can produce, disagreeing with lexical order), `delete("A")` searches
left of "B", finds nothing, and getSorted() still contains "A". -/
theorem C6_counterexample :
    strV "A" ∈ (Tree.delete
        ⟨.node .nil (strV "B") (.node .nil (strV "A") .nil), 2, 3/4⟩
        (strV "A")).getSorted := by decide

/-- C6 amended: when the tree's shape agrees with lexical order of the
values (the strict BST property), `delete(v)` followed by `getSorted()`
returns the previous sequence with `v` erased: `v` no longer appears,
and the remaining values keep their relative order (the result is a
sublist of the previous sequence). -/
theorem C6_delete_on_bst (t : Tree) (v : Str) (h : isBST t.root = true) :
    (Tree.delete t v).getSorted = t.getSorted.erase v ∧
    v ∉ (Tree.delete t v).getSorted ∧
    (Tree.delete t v).getSorted.Sublist t.getSorted := by
  have h1 : (Tree.delete t v).getSorted = t.getSorted.erase v := by
    rw [getSorted_eq_inorder, getSorted_eq_inorder]
    show inorder (balanceScapegoat (deleteRecursive t.root v)) = _
    rw [inorder_balanceScapegoat]
    exact inorder_deleteRecursive t.root v h
  refine ⟨h1, ?_, ?_⟩
  · rw [h1, getSorted_eq_inorder]
    intro hc
    have hnd := inorder_nodup t.root h
    exact absurd (((List.Nodup.mem_erase_iff hnd).mp hc).1) (by simp)
  · rw [h1]
    exact List.erase_sublist v t.getSorted

/-- C6 witness: deleting "B" from the lexically ordered three-node tree
A-B-C leaves ["A","C"]. -/
theorem C6_witness :
    isBST (Node.node (.node .nil (strV "A") .nil) (strV "B")
        (.node .nil (strV "C") .nil)) = true ∧
    ((Tree.delete ⟨.node (.node .nil (strV "A") .nil) (strV "B")
          (.node .nil (strV "C") .nil), 3, 3/4⟩ (strV "B")).getSorted
        = (Tree.getSorted ⟨.node (.node .nil (strV "A") .nil) (strV "B")
          (.node .nil (strV "C") .nil), 3, 3/4⟩).erase (strV "B") ∧
      strV "B" ∉ (Tree.delete ⟨.node (.node .nil (strV "A") .nil) (strV "B")
          (.node .nil (strV "C") .nil), 3, 3/4⟩ (strV "B")).getSorted ∧
      (Tree.delete ⟨.node (.node .nil (strV "A") .nil) (strV "B")
          (.node .nil (strV "C") .nil), 3, 3/4⟩ (strV "B")).getSorted.Sublist
        (Tree.getSorted ⟨.node (.node .nil (strV "A") .nil) (strV "B")
          (.node .nil (strV "C") .nil), 3, 3/4⟩)) :=
  ⟨by decide, C6_delete_on_bst ⟨.node (.node .nil (strV "A") .nil) (strV "B")
      (.node .nil (strV "C") .nil), 3, 3/4⟩ (strV "B") (by decide)⟩

/-- C7 counterexample: an Insertion-Walk termination does not maintain
the size cache.  Inserting "B" to the right of the singleton tree "A"
(whose cache was accurate: sizeCount = 1) produces a 2-node tree whose
`Tree` object carries sizeCount 0 (the fresh wrapper `handleDirection`
creates; the mutated original still carried the stale 1) — not 2. -/
theorem C7_counterexample :
    submitDecision (Tree.mk1 (strV "A")) ⟨[], strV "B"⟩ Dir.right
      = .inserted ⟨.node .nil (strV "A") (.node .nil (strV "B") .nil), 0, 3/4⟩ ∧
    size (.node .nil (strV "A") (.node .nil (strV "B") .nil)) = 2 :=
  ⟨rfl, rfl⟩

/-- C7 amended: `delete` does maintain the cache — after `delete`,
sizeCount equals the number of reachable nodes; and `balance` preserves
both the node count and sizeCount, hence preserves cache accuracy; but
an Insertion-Walk termination leaves sizeCount stale (see the
counterexample). -/
theorem C7_sizeCount_after_mutations (t : Tree) (v : Str) :
    (Tree.delete t v).sizeCount = size (Tree.delete t v).root ∧
    (Tree.balance t).sizeCount = t.sizeCount ∧
    size (Tree.balance t).root = size t.root := by
  refine ⟨?_, rfl, size_balanceScapegoat t.root⟩
  show size (deleteRecursive t.root v) = size (balanceScapegoat (deleteRecursive t.root v))
  rw [size_balanceScapegoat]

/-- C8: `balance()` is idempotent: a second call with no intervening
mutation finds no scapegoat and the tree (root structure, size cache and
alpha alike) is identical to what the first call produced. -/
theorem C8_balance_idempotent (t : Tree) :
    Tree.balance (Tree.balance t) = Tree.balance t := by
  rw [Tree.balance, Tree.balance]
  congr 1
  exact balanceScapegoat_of_verified _ (verifyBalance_balanceScapegoat t.root)

/-- C9 counterexample: the claim's "delete of a missing value leaves the
tree unchanged" is false on an unbalanced tree: `delete()` calls
`balance()` unconditionally, and on the right chain "A","B","C" the
rebalance restructures the tree even though the lexical search for "0"
found no node. -/
theorem C9_counterexample :
    lexFound (.node .nil (strV "A") (.node .nil (strV "B")
        (.node .nil (strV "C") .nil))) (strV "0") = false ∧
    (Tree.delete ⟨.node .nil (strV "A") (.node .nil (strV "B")
        (.node .nil (strV "C") .nil)), 3, 3/4⟩ (strV "0")).root
      ≠ .node .nil (strV "A") (.node .nil (strV "B") (.node .nil (strV "C") .nil)) := by
  refine ⟨by decide, ?_⟩
  simp [Tree.delete, Tree.balance, deleteRecursive, balanceScapegoat,
    buildBalancedTree, collectNodes, size, strV, strLt]

/-- C9 amended: `delete(v)` with `v` not found by the lexical search
leaves the tree unchanged provided the tree already satisfies the
balance invariant and its size cache is accurate (the unconditional
`balance()` inside `delete()` can restructure an unbalanced tree, and
sizeCount is recomputed); and on the empty tree, delete, balance,
getSorted and getTreeString are all no-ops — no error is raised
anywhere. -/
theorem C9_missing_delete_and_empty_ops (v : Str) :
    (∀ t : Tree, lexFound t.root v = false → verifyBalance t.root = true →
        t.sizeCount = size t.root → Tree.delete t v = t) ∧
    Tree.delete Tree.mkEmpty v = Tree.mkEmpty ∧
    Tree.balance Tree.mkEmpty = Tree.mkEmpty ∧
    Tree.getSorted Tree.mkEmpty = [] ∧
    Tree.getTreeString Tree.mkEmpty = "" := by
  refine ⟨?_, rfl, rfl, rfl, rfl⟩
  intro t hfound hbal hsc
  obtain ⟨rt, sc, al⟩ := t
  simp only at hfound hbal hsc
  rw [Tree.delete]
  simp only [lexFound_false_delete rt v hfound]
  rw [Tree.balance]
  simp only [balanceScapegoat_of_verified rt hbal]
  rw [hsc]

/-- C9 witness: on an already balanced three-node tree with accurate
cache, deleting the absent value "0" changes nothing; the search misses. -/
theorem C9_witness :
    lexFound (.node (.node .nil (strV "A") .nil) (strV "B")
        (.node .nil (strV "C") .nil)) (strV "0") = false ∧
    verifyBalance (.node (.node .nil (strV "A") .nil) (strV "B")
        (.node .nil (strV "C") .nil)) = true ∧
    Tree.delete ⟨.node (.node .nil (strV "A") .nil) (strV "B")
        (.node .nil (strV "C") .nil), 3, 3/4⟩ (strV "0")
      = ⟨.node (.node .nil (strV "A") .nil) (strV "B")
        (.node .nil (strV "C") .nil), 3, 3/4⟩ :=
  ⟨by decide, by decide,
    (C9_missing_delete_and_empty_ops (strV "0")).1
      ⟨.node (.node .nil (strV "A") .nil) (strV "B")
        (.node .nil (strV "C") .nil), 3, 3/4⟩ (by decide) (by decide) rfl⟩

/-- C10: the `alpha` field is never consumed: two trees identical except
for their alpha values behave identically under balance, delete,
getSorted, getTreeString and size — the scapegoat test in
`_balanceScapegoat` compares the size difference against the fixed
threshold 1, never against alpha. -/
theorem C10_alpha_never_consumed (rt : Node) (sc : Nat) (a1 a2 : ℚ) (v : Str) :
    (Tree.balance ⟨rt, sc, a1⟩).root = (Tree.balance ⟨rt, sc, a2⟩).root ∧
    (Tree.balance ⟨rt, sc, a1⟩).sizeCount = (Tree.balance ⟨rt, sc, a2⟩).sizeCount ∧
    (Tree.delete ⟨rt, sc, a1⟩ v).root = (Tree.delete ⟨rt, sc, a2⟩ v).root ∧
    (Tree.delete ⟨rt, sc, a1⟩ v).sizeCount = (Tree.delete ⟨rt, sc, a2⟩ v).sizeCount ∧
    Tree.getSorted ⟨rt, sc, a1⟩ = Tree.getSorted ⟨rt, sc, a2⟩ ∧
    Tree.getTreeString ⟨rt, sc, a1⟩ = Tree.getTreeString ⟨rt, sc, a2⟩ ∧
    size (⟨rt, sc, a1⟩ : Tree).root = size (⟨rt, sc, a2⟩ : Tree).root :=
  ⟨rfl, rfl, rfl, rfl, rfl, rfl, rfl⟩

end BinaryTierList
